import Mathlib

/-!
Shallow embedding of `genn.py` from the `awesome-cvpr-2024` repository.

The script is pure string manipulation: it loads records (from a CSV file
or from manual semicolon-separated entries) into a topic-keyed grouping,
renders one Markdown table per topic with badge cells, and splices the
rendered sections into a README after the literal marker
`<!-- TABLES_START -->`.

Python string operations (`in`, `split`, `replace`, `strip`, `rstrip`)
are modelled on `List Char` with structural or fuel-bounded recursion so
that every definition is kernel-executable.  Fallible dictionary access
(`entry['code']`) is modelled with `Option`; a raised exception is
modelled as `Option.none` / `Except.error`.
-/

set_option maxRecDepth 100000

/-! ### Python string primitives -/

/-- Python `needle in hay`: substring containment test. -/
def containsSub (needle : List Char) : List Char → Bool
  | [] => needle.isEmpty
  | c :: s => needle.isPrefixOf (c :: s) || containsSub needle (s)

/-- Python `hay.find(needle)` driving `hay.split(needle, 1)`: locate the
leftmost occurrence of `tok`, returning the text before and after it. -/
def splitFirst (tok : List Char) : List Char → Option (List Char × List Char)
  | [] => none
  | c :: s =>
    if tok.isPrefixOf (c :: s) then some ([], (c :: s).drop tok.length)
    else match splitFirst tok (s) with
         | some (a, b) => some (c :: a, b)
         | none => none

/-- Fuel-bounded worker for Python `s.split(sep)` (nonempty separator):
split at every non-overlapping leftmost occurrence.  A fuel of
`s.length` always suffices because each step consumes at least one
character. -/
def splitAllF (sep : List Char) : Nat → List Char → List (List Char)
  | _, [] => [[]]
  | 0, s => [s]
  | fuel + 1, c :: s =>
    if sep ≠ [] ∧ sep.isPrefixOf (c :: s) then
      [] :: splitAllF sep fuel ((c :: s).drop sep.length)
    else
      match splitAllF sep fuel (s) with
      | a :: rest => (c :: a) :: rest
      | [] => [[c]]

/-- Python `s.split(sep)` for a nonempty separator. -/
def pySplit (s sep : String) : List String :=
  (splitAllF sep.data s.data.length s.data).map String.mk

/-- Fuel-bounded worker for Python `s.replace(pat, repl)` (nonempty
pattern): replace every non-overlapping leftmost occurrence. -/
def replaceAllF (pat repl : List Char) : Nat → List Char → List Char
  | _, [] => []
  | 0, s => s
  | fuel + 1, c :: s =>
    if pat ≠ [] ∧ pat.isPrefixOf (c :: s) then
      repl ++ replaceAllF pat repl fuel ((c :: s).drop pat.length)
    else
      c :: replaceAllF pat repl fuel (s)

/-- Python `s.replace(pat, repl)` for a nonempty pattern. -/
def pyReplace (s pat repl : String) : String :=
  String.mk (replaceAllF pat.data repl.data s.data.length s.data)

/-- Python `s.strip()`: remove leading and trailing whitespace. -/
def pyStrip (s : String) : String :=
  String.mk (((s.data.dropWhile Char.isWhitespace).reverse.dropWhile Char.isWhitespace).reverse)

/-- Python `s.rstrip('/')`: remove trailing slash characters. -/
def pyRstripSlash (s : String) : String :=
  String.mk ((s.data.reverse.dropWhile (fun c => c == '/')).reverse)

/-- Python `needle in hay` lifted to `String`. -/
def strContains (hay needle : String) : Bool :=
  containsSub needle.data hay.data

/-- Python `lst[-1]` on the (always nonempty) result of `split`. -/
def pyLast (l : List String) : String :=
  l.getLastD ""

/-- Split a character stream into newline-separated lines (the final,
unterminated segment included). -/
def linesOf : List Char → List (List Char)
  | [] => [[]]
  | c :: s =>
    if c = '\n' then [] :: linesOf (s)
    else
      match linesOf (s) with
      | a :: rest => (c :: a) :: rest
      | [] => [[c]]

/-- Join a list of lines, terminating each with a newline. -/
def joinNl (ls : List (List Char)) : List Char :=
  (ls.map (fun l => l ++ ['\n'])).flatten

/-- The character sequence that opens a Markdown section heading line. -/
def headingMark : List Char := ['#', '#', ' ']

/-- Number of lines of `s` that start with `## ` (Markdown section
headings). -/
def countHeadings (s : String) : Nat :=
  ((linesOf s.data).filter (fun l => headingMark.isPrefixOf l)).length

/-- The string contains no newline character. -/
def noNl (s : String) : Prop := '\n' ∉ s.data

instance (s : String) : Decidable (noNl s) := by
  unfold noNl; infer_instance

/-! ### Data model

A Python `dict` row is modelled as an association list from field name
to value; `defaultdict(list)` grouping is modelled as an association
list from topic to record list that preserves first-appearance key
order and appends within a group. -/

/-- A record: one paper entry, a string-keyed dictionary. -/
abbrev Record := List (String × String)

/-- Python `entry[k]` as a total lookup: `none` models a `KeyError`. -/
def getField (r : Record) (k : String) : Option String :=
  (r.find? (fun p => p.1 == k)).map Prod.snd

/-- Python `entry.get(k, '')`. -/
def getFieldD (r : Record) (k : String) : String :=
  (getField r k).getD ""

/-- Python `data[k].append(v)` on a `defaultdict(list)`: append `v` to
the group of `k`, creating the group at the end on first appearance. -/
def insertGrouped (d : List (String × List α)) (k : String) (v : α) :
    List (String × List α) :=
  match d with
  | [] => [(k, [v])]
  | (k', vs) :: rest =>
    if k' = k then (k', vs ++ [v]) :: rest
    else (k', vs) :: insertGrouped rest k v

/-- The list of values grouped under key `k` (empty when absent). -/
def groupOf (d : List (String × List α)) (k : String) : List α :=
  ((d.find? (fun p => p.1 == k)).map Prod.snd).getD []

/-- Total number of records over all groups. -/
def totalRecords (d : List (String × List Record)) : Nat :=
  (d.map (fun p => p.2.length)).sum

/-! ### The program: `genn.py` -/

/-- `load_data_from_csv`: the CSV is presented as the header
(`reader.fieldnames`) plus the cell rows; `csv.DictReader` zips the
header with each row.  A missing `topic` column raises
`ValueError("CSV must contain a 'topic' column.")`, modelled as
`Except.error`; otherwise every row is appended to the group of its
`topic` cell. -/
def load_data_from_csv (fieldnames : List String) (rows : List (List String)) :
    Except String (List (String × List Record)) :=
  if fieldnames.contains "topic" then
    Except.ok (rows.foldl
      (fun data cells =>
        let row : Record := fieldnames.zip cells
        insertGrouped data (getFieldD row "topic") row)
      [])
  else
    Except.error "CSV must contain a 'topic' column."

/-- The record built from the six non-topic fields of a manual entry,
each `strip()`ped, exactly as `collect_manual_data` builds it. -/
def mkManualRecord (title authors code arxiv_page project_page summary : String) :
    Record :=
  [("title", pyStrip title), ("authors", pyStrip authors),
   ("code", pyStrip code), ("arxiv page", pyStrip arxiv_page),
   ("project page", pyStrip project_page), ("summary", pyStrip summary)]

/-- `collect_manual_data`: each entry is split on `;`; exactly seven
parts yield one record appended under the (unstripped) topic, any other
part count is skipped (the printed diagnostic has no data effect). -/
def collect_manual_data (entries : List String) : List (String × List Record) :=
  entries.foldl
    (fun data entry =>
      match pySplit entry ";" with
      | [topic, title, authors, code, arxiv_page, project_page, summary] =>
        insertGrouped data topic
          (mkManualRecord title authors code arxiv_page project_page summary)
      | _ => data)
    []

/-- `generate_code_badge`. -/
def generate_code_badge (code_url : String) : String :=
  if strContains code_url "github.com" then
    let repo_name := pyReplace (pyRstripSlash code_url) "https://github.com/" ""
    "[![GitHub](https://img.shields.io/github/stars/" ++ repo_name ++
      "?style=social)](" ++ code_url ++ ")"
  else ""

/-- `generate_arxiv_badge`. -/
def generate_arxiv_badge (arxiv_url : String) : String :=
  if strContains arxiv_url "arxiv.org" || strContains arxiv_url "ar5iv.labs" then
    let arxiv_id := pyLast (pySplit arxiv_url "/")
    "[![arXiv](https://img.shields.io/badge/arXiv-" ++ arxiv_id ++
      "-b31b1b.svg?style=for-the-badge)](" ++ arxiv_url ++ ")"
  else ""

/-- The separator line bound to `header` in `generate_markdown_tables`. -/
def headerSep : String :=
  "|:-------------------|:-------------------|:-------------------:|:-------------------|\n"

/-- The fixed first two lines of every rendered table. -/
def tableHead : String :=
  "| Title | Authors | Code / arXiv Page | Summary |\n" ++ headerSep

/-- One loop iteration of `generate_markdown_tables`: render a record's
table row.  `entry['code']`, `entry['title']` and `entry['authors']`
are unconditional subscripts (a missing key is a `KeyError`, modelled
as `none`); the other three fields are read with an empty default. -/
def renderRow (entry : Record) : Option String :=
  match getField entry "code", getField entry "title", getField entry "authors" with
  | some code, some title0, some authors =>
    let code_badge := generate_code_badge code
    let arxiv_badge := generate_arxiv_badge (getFieldD entry "arxiv page")
    let summary := getFieldD entry "summary"
    let code_arxiv_combined := pyStrip (code_badge ++ " " ++ arxiv_badge)
    let title :=
      if getFieldD entry "project page" = "" then title0
      else "[" ++ title0 ++ "](" ++ getFieldD entry "project page" ++ ")"
    some ("| " ++ title ++ " | " ++ authors ++ " | " ++ code_arxiv_combined ++
      " | " ++ summary ++ " |\n")
  | _, _, _ => none

/-- The table for one topic: the fixed head followed by one row per
record, accumulated by `table += row`. -/
def renderTable (entries : List Record) : Option String :=
  (entries.mapM renderRow).map (fun rows => rows.foldl (fun t r => t ++ r) tableHead)

/-- `generate_markdown_tables`: one table per topic, in input order; a
`KeyError` anywhere aborts the whole call. -/
def generate_markdown_tables (data : List (String × List Record)) :
    Option (List (String × String)) :=
  data.mapM (fun te => (renderTable te.2).map (fun tb => (te.1, tb)))

/-- The marker token of `update_readme_with_tables`. -/
def tablesToken : String := "<!-- TABLES_START -->"

/-- The `new_content` accumulation of `update_readme_with_tables`:
`new_content += f"\n## {topic}\n{table}\n"` over the tables. -/
def new_content (tables : List (String × String)) : String :=
  tables.foldl (fun acc te => acc ++ ("\n## " ++ te.1 ++ "\n" ++ te.2 ++ "\n")) ""

/-- The pure content transformation of `update_readme_with_tables`: if
the token occurs in the file, keep everything before its first
occurrence, re-emit the token and append the fresh sections; otherwise
append a newline, the token and the fresh sections at the end. -/
def update_readme_content (tables : List (String × String)) (content : String) :
    String :=
  match splitFirst tablesToken.data content.data with
  | some (before, _) => String.mk before ++ tablesToken ++ new_content tables
  | none => content ++ "\n" ++ tablesToken ++ new_content tables

/-- `update_readme_with_tables` prints its missing-token diagnostic
exactly when the token does not occur in the file. -/
def tokenMissingDiagnostic (content : String) : Bool :=
  (splitFirst tablesToken.data content.data).isNone

/-! ### Lemmas about `splitFirst` (leftmost-occurrence splitting) -/

/-- A successful split decomposes the input around the token. -/
theorem splitFirst_eq_some_append {tok s a b : List Char}
    (h : splitFirst tok s = some (a, b)) : s = a ++ tok ++ b := by
  induction s generalizing a b with
  | nil => simp [splitFirst] at h
  | cons c s ih =>
    rw [splitFirst] at h
    by_cases hp : tok.isPrefixOf (c :: s)
    · rw [if_pos hp] at h
      simp only [Option.some.injEq, Prod.mk.injEq] at h
      obtain ⟨rfl, rfl⟩ := h
      have hpre : tok <+: c :: s := List.isPrefixOf_iff_prefix.mp hp
      have htake := List.prefix_iff_eq_take.mp hpre
      calc c :: s = (c :: s).take tok.length ++ (c :: s).drop tok.length :=
            (List.take_append_drop _ _).symm
        _ = [] ++ tok ++ (c :: s).drop tok.length := by rw [← htake]; rfl
    · rw [if_neg hp] at h
      cases hsf : splitFirst tok s with
      | none => rw [hsf] at h; exact absurd h (by simp)
      | some p =>
        obtain ⟨a', b'⟩ := p
        rw [hsf] at h
        simp only [Option.some.injEq, Prod.mk.injEq] at h
        obtain ⟨rfl, rfl⟩ := h
        have := ih hsf
        simp [this]

/-- The text before the found occurrence does not itself contain the
token: the split is at the first occurrence. -/
theorem containsSub_eq_false_of_splitFirst {tok s a b : List Char}
    (htok : tok ≠ []) (h : splitFirst tok s = some (a, b)) :
    containsSub tok a = false := by
  induction s generalizing a b with
  | nil => simp [splitFirst] at h
  | cons c s ih =>
    rw [splitFirst] at h
    by_cases hp : tok.isPrefixOf (c :: s)
    · rw [if_pos hp] at h
      simp only [Option.some.injEq, Prod.mk.injEq] at h
      obtain ⟨rfl, -⟩ := h
      simp [containsSub, List.isEmpty_iff, htok]
    · rw [if_neg hp] at h
      cases hsf : splitFirst tok s with
      | none => rw [hsf] at h; exact absurd h (by simp)
      | some p =>
        obtain ⟨a', b'⟩ := p
        rw [hsf] at h
        simp only [Option.some.injEq, Prod.mk.injEq] at h
        obtain ⟨rfl, -⟩ := h
        rw [containsSub]
        have h1 : tok.isPrefixOf (c :: a') = false := by
          rw [Bool.eq_false_iff]
          intro hcon
          apply hp
          have hpre : tok <+: c :: a' := List.isPrefixOf_iff_prefix.mp hcon
          have hs : s = a' ++ tok ++ b' := splitFirst_eq_some_append hsf
          have : tok <+: c :: s := by
            rw [hs]
            exact hpre.trans (by rw [show c :: (a' ++ tok ++ b') = (c :: a') ++ (tok ++ b') by simp]
                                 exact List.prefix_append _ _)
          exact List.isPrefixOf_iff_prefix.mpr this
        rw [h1, ih hsf]
        rfl

/-- Prefix testing only looks at the first `tok.length` characters. -/
theorem prefix_append_iff_of_le {tok u : List Char} (v : List Char)
    (h : tok.length ≤ u.length) : tok <+: u ++ v ↔ tok <+: u := by
  constructor
  · intro hp
    have h1 := List.prefix_iff_eq_take.mp hp
    rw [List.take_append_of_le_length h] at h1
    exact List.prefix_iff_eq_take.mpr h1
  · intro hp
    exact hp.trans (List.prefix_append u v)

/-- Splitting a string that begins with the token finds it at once. -/
theorem splitFirst_self_append (tok c : List Char) (htok : tok ≠ []) :
    splitFirst tok (tok ++ c) = some ([], c) := by
  cases tok with
  | nil => exact absurd rfl htok
  | cons t ts =>
    rw [show (t :: ts) ++ c = t :: (ts ++ c) from rfl, splitFirst]
    have hp : (t :: ts).isPrefixOf (t :: (ts ++ c)) := by
      exact List.isPrefixOf_iff_prefix.mpr (List.prefix_append _ _)
    rw [if_pos hp]
    have : (t :: (ts ++ c)).drop (t :: ts).length = c := by
      rw [show t :: (ts ++ c) = (t :: ts) ++ c from rfl]
      exact List.drop_left _ _
    rw [this]

/-- Re-splitting after replacing everything past the token finds the
token at the same place. -/
theorem splitFirst_stable {tok s a b : List Char} (htok : tok ≠ [])
    (h : splitFirst tok s = some (a, b)) (c : List Char) :
    splitFirst tok (a ++ tok ++ c) = some (a, c) := by
  induction s generalizing a b with
  | nil => simp [splitFirst] at h
  | cons x s ih =>
    rw [splitFirst] at h
    by_cases hp : tok.isPrefixOf (x :: s)
    · rw [if_pos hp] at h
      simp only [Option.some.injEq, Prod.mk.injEq] at h
      obtain ⟨rfl, -⟩ := h
      simpa using splitFirst_self_append tok c htok
    · rw [if_neg hp] at h
      cases hsf : splitFirst tok s with
      | none => rw [hsf] at h; exact absurd h (by simp)
      | some p =>
        obtain ⟨a', b'⟩ := p
        rw [hsf] at h
        simp only [Option.some.injEq, Prod.mk.injEq] at h
        obtain ⟨rfl, -⟩ := h
        have hs : s = a' ++ tok ++ b' := splitFirst_eq_some_append hsf
        rw [show (x :: a') ++ tok ++ c = x :: (a' ++ tok ++ c) from rfl, splitFirst]
        have hlen : tok.length ≤ (x :: (a' ++ tok)).length := by
          simp; omega
        have hp' : ¬ tok.isPrefixOf (x :: (a' ++ tok ++ c)) := by
          intro hcon
          apply hp
          have h1 : tok <+: (x :: (a' ++ tok)) ++ c := by
            have := List.isPrefixOf_iff_prefix.mp hcon
            simpa using this
          have h2 : tok <+: x :: (a' ++ tok) := (prefix_append_iff_of_le c hlen).mp h1
          have h3 : tok <+: (x :: (a' ++ tok)) ++ b' := h2.trans (List.prefix_append _ _)
          apply List.isPrefixOf_iff_prefix.mpr
          rw [hs]
          simpa using h3
        rw [if_neg hp', ih hsf]

/-- When the token is absent, appending a newline, the token and a tail
makes the appended token the first occurrence (the token itself
contains no newline). -/
theorem splitFirst_none_append {tok s c : List Char} (htok : tok ≠ [])
    (hnl : '\n' ∉ tok) (h : splitFirst tok s = none) :
    splitFirst tok (s ++ '\n' :: (tok ++ c)) = some (s ++ ['\n'], c) := by
  induction s with
  | nil =>
    rw [List.nil_append, splitFirst]
    have hp : ¬ tok.isPrefixOf ('\n' :: (tok ++ c)) := by
      intro hcon
      cases tok with
      | nil => exact htok rfl
      | cons t ts =>
        have hpre : t :: ts <+: '\n' :: ((t :: ts) ++ c) := List.isPrefixOf_iff_prefix.mp hcon
        rw [List.cons_prefix_cons] at hpre
        exact hnl (hpre.1 ▸ List.mem_cons_self t ts)
    rw [if_neg hp, splitFirst_self_append tok c htok]
    rfl
  | cons x s ih =>
    rw [splitFirst] at h
    by_cases hp : tok.isPrefixOf (x :: s)
    · rw [if_pos hp] at h; exact absurd h (by simp)
    · rw [if_neg hp] at h
      cases hsf : splitFirst tok s with
      | some p => rw [hsf] at h; exact absurd h (by simp)
      | none =>
        rw [show (x :: s) ++ '\n' :: (tok ++ c) = x :: (s ++ '\n' :: (tok ++ c)) from rfl,
          splitFirst]
        have hp' : ¬ tok.isPrefixOf (x :: (s ++ '\n' :: (tok ++ c))) := by
          intro hcon
          have hpre : tok <+: (x :: s) ++ '\n' :: (tok ++ c) := by
            have := List.isPrefixOf_iff_prefix.mp hcon
            simpa using this
          by_cases hlen : tok.length ≤ (x :: s).length
          · apply hp
            exact List.isPrefixOf_iff_prefix.mpr ((prefix_append_iff_of_le _ hlen).mp hpre)
          · push_neg at hlen
            apply hnl
            have h1 : (x :: s) ++ ['\n'] <+: (x :: s) ++ '\n' :: (tok ++ c) := by
              refine ⟨tok ++ c, ?_⟩
              simp
            have hlen2 : s.length + 1 < tok.length := by simpa using hlen
            have h2 : (x :: s) ++ ['\n'] <+: tok :=
              List.prefix_of_prefix_length_le h1 hpre
                (by simp only [List.length_append, List.length_cons, List.length_nil]; omega)
            exact h2.subset (by simp)
        rw [if_neg hp', ih hsf]
        rfl

/-- A token that occurs somewhere is always found. -/
theorem splitFirst_isSome_append {tok a b : List Char} (htok : tok ≠ []) :
    (splitFirst tok (a ++ tok ++ b)).isSome = true := by
  induction a with
  | nil => simp [splitFirst_self_append tok b htok]
  | cons x a ih =>
    rw [show (x :: a) ++ tok ++ b = x :: (a ++ tok ++ b) from rfl, splitFirst]
    by_cases hp : tok.isPrefixOf (x :: (a ++ tok ++ b))
    · rw [if_pos hp]; rfl
    · rw [if_neg hp]
      cases hsf : splitFirst tok (a ++ tok ++ b) with
      | none => rw [hsf] at ih; exact absurd ih (by simp)
      | some p => rfl

/-! ### Lemmas about grouping -/

/-- Appending to a `defaultdict(list)` extends exactly the addressed
group by one element at its end. -/
theorem groupOf_insertGrouped (d : List (String × List α)) (k : String) (v : α)
    (t : String) :
    groupOf (insertGrouped d k v) t = if t = k then groupOf d t ++ [v] else groupOf d t := by
  induction d with
  | nil =>
    by_cases h : t = k
    · subst h; simp [groupOf, insertGrouped]
    · simp [groupOf, insertGrouped, h, Ne.symm h]
  | cons p rest ih =>
    obtain ⟨k', vs⟩ := p
    rw [insertGrouped]
    by_cases hk : k' = k
    · subst hk
      by_cases ht : t = k'
      · subst ht; simp [groupOf]
      · simp [groupOf, if_pos rfl, Ne.symm ht, ht]
    · rw [if_neg hk]
      by_cases ht : t = k'
      · subst ht
        rw [if_neg hk]
        simp [groupOf]
      · simp only [groupOf, List.find?] at ih ⊢
        have hbeq : (k' == t) = false := by
          rw [beq_eq_false_iff_ne]
          exact fun hc => ht hc.symm
        simp [hbeq, ih, groupOf]

/-- Folding `insertGrouped` over a list groups it by key: the group of
`t` is the original group of `t` followed by the images of exactly the
elements whose key is `t`, in order. -/
theorem groupOf_foldl_insertGrouped (key : β → String) (f : β → α)
    (l : List β) (d : List (String × List α)) (t : String) :
    groupOf (l.foldl (fun d x => insertGrouped d (key x) (f x)) d) t =
      groupOf d t ++ (l.filter (fun x => key x == t)).map f := by
  induction l generalizing d with
  | nil => simp
  | cons x l ih =>
    rw [List.foldl_cons, ih, groupOf_insertGrouped]
    by_cases h : t = key x
    · subst h
      simp [List.filter_cons]
    · rw [if_neg h]
      have : (key x == t) = false := by
        rw [beq_eq_false_iff_ne]
        exact fun hc => h hc.symm
      simp [List.filter_cons, this]

/-- Appending to a group adds exactly one record overall. -/
theorem totalRecords_insertGrouped (d : List (String × List Record)) (k : String)
    (v : Record) : totalRecords (insertGrouped d k v) = totalRecords d + 1 := by
  induction d with
  | nil => simp [totalRecords, insertGrouped]
  | cons p rest ih =>
    obtain ⟨k', vs⟩ := p
    rw [insertGrouped]
    by_cases hk : k' = k
    · simp [hk, totalRecords]
      omega
    · simp only [if_neg hk, totalRecords, List.map_cons, List.sum_cons] at ih ⊢
      omega

/-! ### Lemmas about `Option`-valued traversal -/

/-- A successful `mapM` relates output to input elementwise. -/
theorem mapM_eq_some_forall2 {f : α → Option β} {l : List α} {l' : List β}
    (h : l.mapM f = some l') : List.Forall₂ (fun b a => f a = some b) l' l := by
  induction l generalizing l' with
  | nil =>
    simp only [List.mapM_nil, Option.pure_def, Option.some.injEq] at h
    subst h
    exact List.Forall₂.nil
  | cons x l ih =>
    rw [List.mapM_cons] at h
    cases hx : f x with
    | none => rw [hx] at h; exact absurd h (by simp)
    | some y =>
      rw [hx] at h
      cases hl : l.mapM f with
      | none => rw [hl] at h; exact absurd h (by simp)
      | some ys =>
        rw [hl] at h
        simp only [Option.pure_def, Option.bind_eq_bind, Option.some_bind,
          Option.some.injEq] at h
        subst h
        exact List.Forall₂.cons hx (ih hl)

/-! ### Lemmas about lines -/

/-- Prepending one newline-terminated, newline-free line shifts
`linesOf` by that line. -/
theorem linesOf_append_line {l : List Char} (r : List Char) (h : '\n' ∉ l) :
    linesOf (l ++ '\n' :: r) = l :: linesOf r := by
  induction l with
  | nil => simp [linesOf]
  | cons c l ih =>
    have hc : c ≠ '\n' := fun hc => h (hc ▸ List.mem_cons_self c l)
    have hl : '\n' ∉ l := fun hm => h (List.mem_cons_of_mem c hm)
    rw [List.cons_append, linesOf, if_neg hc, ih hl]

/-- `linesOf` turns a block of newline-terminated, newline-free lines
followed by a remainder into those lines followed by the remainder's
lines. -/
theorem linesOf_joinNl {ls : List (List Char)} (rest : List Char)
    (h : ∀ l ∈ ls, '\n' ∉ l) :
    linesOf (joinNl ls ++ rest) = ls ++ linesOf rest := by
  induction ls with
  | nil => simp [joinNl]
  | cons l ls ih =>
    have h1 : '\n' ∉ l := h l (List.mem_cons_self l ls)
    have h2 : ∀ x ∈ ls, '\n' ∉ x := fun x hx => h x (List.mem_cons_of_mem l hx)
    have : joinNl (l :: ls) ++ rest = l ++ '\n' :: (joinNl ls ++ rest) := by
      simp [joinNl]
    rw [this, linesOf_append_line _ h1, ih h2]
    rfl

/-! ### Claims about the README patcher -/

/-- C2: when the file contains the marker token, the written content is
everything up to and including the first occurrence of the token,
unchanged, followed by the freshly rendered sections; everything that
previously followed the token (here `post`) is dropped. -/
theorem readme_patch_replaces_after_token (tables : List (String × String))
    (content : String) (pre post : List Char)
    (h : splitFirst tablesToken.data content.data = some (pre, post)) :
    update_readme_content tables content =
      String.mk pre ++ tablesToken ++ new_content tables ∧
    content.data = pre ++ tablesToken.data ++ post ∧
    containsSub tablesToken.data pre = false := by
  refine ⟨?_, splitFirst_eq_some_append h, containsSub_eq_false_of_splitFirst (by decide) h⟩
  unfold update_readme_content
  rw [h]

/-- Witness for C2 on a concrete README. -/
theorem readme_patch_replaces_after_token_witness :
    splitFirst tablesToken.data ("Intro\n<!-- TABLES_START -->\nold stuff".data) =
      some ("Intro\n".data, "\nold stuff".data) ∧
    (update_readme_content [("T", "B\n")] "Intro\n<!-- TABLES_START -->\nold stuff" =
        String.mk "Intro\n".data ++ tablesToken ++ new_content [("T", "B\n")] ∧
      "Intro\n<!-- TABLES_START -->\nold stuff".data =
        "Intro\n".data ++ tablesToken.data ++ "\nold stuff".data ∧
      containsSub tablesToken.data "Intro\n".data = false) :=
  ⟨by decide,
   readme_patch_replaces_after_token [("T", "B\n")] "Intro\n<!-- TABLES_START -->\nold stuff"
     ("Intro\n".data) ("\nold stuff".data) (by decide)⟩

/-- C3: patching is idempotent: running the patcher a second time with
the same tables on the file produced by the first run reproduces the
first run's output exactly. -/
theorem readme_patch_idempotent (tables : List (String × String)) (content : String) :
    update_readme_content tables (update_readme_content tables content) =
      update_readme_content tables content := by
  have htok : tablesToken.data ≠ [] := by decide
  cases h : splitFirst tablesToken.data content.data with
  | some p =>
    obtain ⟨a, b⟩ := p
    have h1 : update_readme_content tables content =
        String.mk a ++ tablesToken ++ new_content tables := by
      unfold update_readme_content
      rw [h]
    rw [h1]
    have hdata : (String.mk a ++ tablesToken ++ new_content tables).data =
        a ++ tablesToken.data ++ (new_content tables).data := by
      simp [String.data_append]
    have h2 := splitFirst_stable htok h ((new_content tables).data)
    unfold update_readme_content
    rw [hdata, h2]
  | none =>
    have h1 : update_readme_content tables content =
        content ++ "\n" ++ tablesToken ++ new_content tables := by
      unfold update_readme_content
      rw [h]
    rw [h1]
    have hdata : (content ++ "\n" ++ tablesToken ++ new_content tables).data =
        content.data ++ '\n' :: (tablesToken.data ++ (new_content tables).data) := by
      simp [String.data_append]
    have h2 : splitFirst tablesToken.data
        (content.data ++ '\n' :: (tablesToken.data ++ (new_content tables).data)) =
        some (content.data ++ ['\n'], (new_content tables).data) :=
      splitFirst_none_append htok (by decide) h
    unfold update_readme_content
    rw [hdata, h2]
    have h3 : String.mk (content.data ++ ['\n']) = content ++ "\n" := by
      apply String.ext
      simp [String.data_append]
    change String.mk (content.data ++ ['\n']) ++ tablesToken ++ new_content tables =
      content ++ "\n" ++ tablesToken ++ new_content tables
    rw [h3]

/-- C8: when the file does not contain the marker token, the patcher
appends a newline, the token and the fresh sections at the end of the
original content, and the missing-token diagnostic fires; the
hypothesis is exactly the absence of the token from the file. -/
theorem readme_patch_appends_when_token_missing (tables : List (String × String))
    (content : String) (h : splitFirst tablesToken.data content.data = none) :
    update_readme_content tables content =
      content ++ "\n" ++ tablesToken ++ new_content tables ∧
    tokenMissingDiagnostic content = true ∧
    ¬ ∃ pre post : String, content = pre ++ tablesToken ++ post := by
  refine ⟨?_, ?_, ?_⟩
  · unfold update_readme_content
    rw [h]
  · unfold tokenMissingDiagnostic
    rw [h]
    rfl
  · rintro ⟨pre, post, hc⟩
    have hsome : (splitFirst tablesToken.data content.data).isSome = true := by
      rw [hc]
      have hd : (pre ++ tablesToken ++ post).data =
          pre.data ++ tablesToken.data ++ post.data := by
        simp [String.data_append]
      rw [hd]
      exact splitFirst_isSome_append (by decide)
    rw [h] at hsome
    exact absurd hsome (by simp)

/-- Witness for C8 on a concrete marker-free README. -/
theorem readme_patch_appends_when_token_missing_witness :
    splitFirst tablesToken.data ("A plain README".data) = none ∧
    (update_readme_content [("T", "B\n")] "A plain README" =
        "A plain README" ++ "\n" ++ tablesToken ++ new_content [("T", "B\n")] ∧
      tokenMissingDiagnostic "A plain README" = true ∧
      ¬ ∃ pre post : String, "A plain README" = pre ++ tablesToken ++ post) :=
  ⟨by decide,
   readme_patch_appends_when_token_missing [("T", "B\n")] "A plain README" (by decide)⟩

/-! ### Claims about the input loaders -/

/-- C6: a manual entry splitting into exactly seven semicolon-separated
parts contributes exactly one record, under the entry's topic (the
first part), with the six record fields whitespace-trimmed; an entry
with any other part count leaves the collected data unchanged.
`insertGrouped` itself adds exactly one record, at the end of the
addressed topic's group. -/
theorem manual_entry_seven_fields (entries : List String) (entry : String) :
    (∀ t ti au co ap pp sm : String,
      pySplit entry ";" = [t, ti, au, co, ap, pp, sm] →
      collect_manual_data (entries ++ [entry]) =
        insertGrouped (collect_manual_data entries) t
          (mkManualRecord ti au co ap pp sm)) ∧
    ((pySplit entry ";").length ≠ 7 →
      collect_manual_data (entries ++ [entry]) = collect_manual_data entries) ∧
    (∀ (d : List (String × List Record)) (k : String) (v : Record),
      totalRecords (insertGrouped d k v) = totalRecords d + 1 ∧
      groupOf (insertGrouped d k v) k = groupOf d k ++ [v]) := by
  refine ⟨?_, ?_, ?_⟩
  · intro t ti au co ap pp sm hsplit
    unfold collect_manual_data
    rw [List.foldl_append]
    simp only [List.foldl_cons, List.foldl_nil]
    rw [hsplit]
  · intro hlen
    unfold collect_manual_data
    rw [List.foldl_append]
    simp only [List.foldl_cons, List.foldl_nil]
    generalize hl : pySplit entry ";" = l at hlen ⊢
    rcases l with - | ⟨a1, - | ⟨a2, - | ⟨a3, - | ⟨a4, - | ⟨a5, - | ⟨a6, - | ⟨a7, - | ⟨a8, r⟩⟩⟩⟩⟩⟩⟩⟩ <;>
      first
        | rfl
        | simp at hlen
  · intro d k v
    refine ⟨totalRecords_insertGrouped d k v, ?_⟩
    rw [groupOf_insertGrouped]
    simp

/-- Witness for C6: a well-formed entry is added (fields trimmed), a
malformed one is skipped. -/
theorem manual_entry_seven_fields_witness :
    pySplit "t; a ;b;c;d;e;f" ";" = ["t", " a ", "b", "c", "d", "e", "f"] ∧
    collect_manual_data ([] ++ ["t; a ;b;c;d;e;f"]) =
      insertGrouped (collect_manual_data []) "t" (mkManualRecord " a " "b" "c" "d" "e" "f") ∧
    (pySplit "x;y" ";").length ≠ 7 ∧
    collect_manual_data (["t; a ;b;c;d;e;f"] ++ ["x;y"]) =
      collect_manual_data ["t; a ;b;c;d;e;f"] :=
  ⟨by decide,
   (manual_entry_seven_fields [] "t; a ;b;c;d;e;f").1 "t" " a " "b" "c" "d" "e" "f" (by decide),
   by decide,
   (manual_entry_seven_fields ["t; a ;b;c;d;e;f"] "x;y").2.1 (by decide)⟩

/-- C7: loading fails with the configuration error exactly when the
header has no `topic` column; with the column present it succeeds and
the group of each topic value consists of exactly the rows carrying
that value, in order, zipped with the header. -/
theorem csv_topic_column_required :
    (∀ (fieldnames : List String) (rows : List (List String)),
      fieldnames.contains "topic" = false →
      load_data_from_csv fieldnames rows =
        Except.error "CSV must contain a 'topic' column.") ∧
    (∀ (fieldnames : List String) (rows : List (List String)),
      fieldnames.contains "topic" = true →
      ∃ d, load_data_from_csv fieldnames rows = Except.ok d ∧
        ∀ t, groupOf d t =
          (rows.filter (fun cells => getFieldD (fieldnames.zip cells) "topic" == t)).map
            (fun cells => fieldnames.zip cells)) := by
  constructor
  · intro fns rows h
    have h2 : "topic" ∉ fns := by simpa using h
    simp [load_data_from_csv, h2]
  · intro fns rows h
    have h2 : "topic" ∈ fns := by simpa using h
    refine ⟨rows.foldl
      (fun data cells =>
        insertGrouped data (getFieldD (fns.zip cells) "topic") (fns.zip cells)) [], ?_, ?_⟩
    · simp [load_data_from_csv, h2]
    · intro t
      have := groupOf_foldl_insertGrouped
        (fun cells => getFieldD (fns.zip cells) "topic")
        (fun cells => fns.zip cells) rows [] t
      simpa [groupOf] using this

/-- Witness for C7: a header without `topic` errors; one with `topic`
groups the rows by their topic cell. -/
theorem csv_topic_column_required_witness :
    ((["a", "b"] : List String).contains "topic" = false ∧
      load_data_from_csv ["a", "b"] [["1", "2"]] =
        Except.error "CSV must contain a 'topic' column.") ∧
    ((["topic", "title"] : List String).contains "topic" = true ∧
      ∃ d, load_data_from_csv ["topic", "title"] [["x", "T1"], ["y", "T2"], ["x", "T3"]] =
          Except.ok d ∧
        ∀ t, groupOf d t =
          (([["x", "T1"], ["y", "T2"], ["x", "T3"]].filter
              (fun cells => getFieldD (["topic", "title"].zip cells) "topic" == t)).map
            (fun cells => ["topic", "title"].zip cells))) :=
  ⟨⟨by decide, csv_topic_column_required.1 ["a", "b"] [["1", "2"]] (by decide)⟩,
   ⟨by decide,
    csv_topic_column_required.2 ["topic", "title"] [["x", "T1"], ["y", "T2"], ["x", "T3"]]
      (by decide)⟩⟩

/-! ### Claims about the badge generators -/

/-- C5: a URL containing `arxiv.org` or `ar5iv.labs` yields a static
badge whose visible identifier is the last `/`-separated path segment
of the URL; any other URL yields the empty string. -/
theorem arxiv_badge_last_segment :
    (∀ url : String, (strContains url "arxiv.org" || strContains url "ar5iv.labs") = true →
      generate_arxiv_badge url =
        "[![arXiv](https://img.shields.io/badge/arXiv-" ++ pyLast (pySplit url "/") ++
          "-b31b1b.svg?style=for-the-badge)](" ++ url ++ ")") ∧
    (∀ url : String, (strContains url "arxiv.org" || strContains url "ar5iv.labs") = false →
      generate_arxiv_badge url = "") ∧
    generate_arxiv_badge "https://arxiv.org/abs/2403.12345" =
      "[![arXiv](https://img.shields.io/badge/arXiv-2403.12345-b31b1b.svg?style=for-the-badge)](https://arxiv.org/abs/2403.12345)" ∧
    pyLast (pySplit "https://arxiv.org/abs/2403.12345" "/") = "2403.12345" := by
  refine ⟨?_, ?_, by decide, by decide⟩
  · intro url h
    simp [generate_arxiv_badge, h]
  · intro url h
    simp only [Bool.or_eq_false_iff] at h
    simp [generate_arxiv_badge, h.1, h.2]

/-- Witness for C5: the general clauses applied to an arXiv URL and to
a non-arXiv URL. -/
theorem arxiv_badge_last_segment_witness :
    ((strContains "https://arxiv.org/abs/2403.12345" "arxiv.org" ||
        strContains "https://arxiv.org/abs/2403.12345" "ar5iv.labs") = true ∧
      generate_arxiv_badge "https://arxiv.org/abs/2403.12345" =
        "[![arXiv](https://img.shields.io/badge/arXiv-" ++
          pyLast (pySplit "https://arxiv.org/abs/2403.12345" "/") ++
          "-b31b1b.svg?style=for-the-badge)](" ++ "https://arxiv.org/abs/2403.12345" ++ ")") ∧
    ((strContains "https://example.com/paper" "arxiv.org" ||
        strContains "https://example.com/paper" "ar5iv.labs") = false ∧
      generate_arxiv_badge "https://example.com/paper" = "") :=
  ⟨⟨by decide, arxiv_badge_last_segment.1 "https://arxiv.org/abs/2403.12345" (by decide)⟩,
   ⟨by decide, arxiv_badge_last_segment.2.1 "https://example.com/paper" (by decide)⟩⟩

/-- A needle occurring as a factor of the haystack is found. -/
theorem containsSub_append_self (n a b : List Char) (hn : n ≠ []) :
    containsSub n (a ++ (n ++ b)) = true := by
  induction a with
  | nil =>
    rw [List.nil_append]
    cases n with
    | nil => exact absurd rfl hn
    | cons p ps =>
      rw [List.cons_append, containsSub]
      have : (p :: ps).isPrefixOf (p :: (ps ++ b)) = true := by
        apply List.isPrefixOf_iff_prefix.mpr
        rw [show p :: (ps ++ b) = (p :: ps) ++ b from rfl]
        exact List.prefix_append _ _
      simp [this]
  | cons x a ih =>
    rw [List.cons_append, containsSub, ih]
    simp

/-- Replacing a pattern that does not occur is the identity. -/
theorem replaceAllF_of_not_contains {pat : List Char} (repl : List Char)
    {s : List Char} (h : containsSub pat s = false) (fuel : Nat) :
    replaceAllF pat repl fuel s = s := by
  induction s generalizing fuel with
  | nil => cases fuel <;> rfl
  | cons c s ih =>
    rw [containsSub, Bool.or_eq_false_iff] at h
    cases fuel with
    | zero => rfl
    | succ f =>
      rw [replaceAllF, if_neg (fun hc => by rw [h.1] at hc; exact absurd hc.2 (by simp)),
        ih h.2]

/-- Removing a leading pattern occurrence from `pat ++ core` leaves
exactly `core` when the pattern does not occur in `core`. -/
theorem replaceAllF_strip_head {pat core : List Char} (hn : pat ≠ [])
    (h : containsSub pat core = false) :
    replaceAllF pat [] (pat ++ core).length (pat ++ core) = core := by
  cases pat with
  | nil => exact absurd rfl hn
  | cons p ps =>
    rw [show (p :: ps) ++ core = p :: (ps ++ core) from rfl]
    rw [show (p :: (ps ++ core)).length = (ps ++ core).length + 1 from rfl]
    rw [replaceAllF]
    have hpre : (p :: ps).isPrefixOf (p :: (ps ++ core)) = true := by
      apply List.isPrefixOf_iff_prefix.mpr
      rw [show p :: (ps ++ core) = (p :: ps) ++ core from rfl]
      exact List.prefix_append _ _
    rw [if_pos ⟨hn, hpre⟩]
    have hdrop : (p :: (ps ++ core)).drop (p :: ps).length = core := by
      rw [show p :: (ps ++ core) = (p :: ps) ++ core from rfl]
      exact List.drop_left _ _
    rw [hdrop, replaceAllF_of_not_contains [] h]
    rfl

/-- C4: a URL containing `github.com` yields the star badge built from
the URL with any trailing slashes stripped and the host prefix
removed; on a canonical `https://github.com/owner/repo/` URL the badge
shows exactly `owner/repo` (no duplicated slash); any URL without
`github.com` yields the empty string. -/
theorem code_badge_github :
    (∀ url : String, strContains url "github.com" = true →
      generate_code_badge url =
        "[![GitHub](https://img.shields.io/github/stars/" ++
          pyReplace (pyRstripSlash url) "https://github.com/" "" ++
          "?style=social)](" ++ url ++ ")") ∧
    (∀ core : String, core.data ≠ [] → core.data.getLast? ≠ some '/' →
      containsSub "https://github.com/".data core.data = false →
      generate_code_badge ("https://github.com/" ++ core ++ "/") =
        "[![GitHub](https://img.shields.io/github/stars/" ++ core ++
          "?style=social)](" ++ ("https://github.com/" ++ core ++ "/") ++ ")") ∧
    (∀ url : String, strContains url "github.com" = false →
      generate_code_badge url = "") ∧
    generate_code_badge "https://github.com/org/repo/" =
      "[![GitHub](https://img.shields.io/github/stars/org/repo?style=social)](https://github.com/org/repo/)" := by
  have hmain : ∀ url : String, strContains url "github.com" = true →
      generate_code_badge url =
        "[![GitHub](https://img.shields.io/github/stars/" ++
          pyReplace (pyRstripSlash url) "https://github.com/" "" ++
          "?style=social)](" ++ url ++ ")" := by
    intro url h
    simp [generate_code_badge, h]
  refine ⟨hmain, ?_, ?_, by decide⟩
  · intro core hne hlast hnocc
    have hcont : strContains ("https://github.com/" ++ core ++ "/") "github.com" = true := by
      unfold strContains
      have hd1 : "https://github.com/".data =
          "https://".data ++ "github.com".data ++ "/".data := by decide
      have hd : ("https://github.com/" ++ core ++ "/").data =
          "https://".data ++ ("github.com".data ++ ("/".data ++ (core.data ++ "/".data))) := by
        simp [String.data_append, hd1]
      rw [hd]
      exact containsSub_append_self _ _ _ (by decide)
    have hrstrip : pyRstripSlash ("https://github.com/" ++ core ++ "/") =
        "https://github.com/" ++ core := by
      apply String.ext
      obtain ⟨c, r, hrev⟩ : ∃ c r, core.data.reverse = c :: r := by
        cases hr : core.data.reverse with
        | nil => exact absurd (by simpa using hr) hne
        | cons c r => exact ⟨c, r, rfl⟩
      have hc : (c == '/') = false := by
        rw [beq_eq_false_iff_ne]
        intro hcc
        apply hlast
        rw [← List.head?_reverse, hrev, ← hcc]
        rfl
      have hcore : core.data = r.reverse ++ [c] := by
        rw [← List.reverse_reverse core.data, hrev, List.reverse_cons]
      show (("https://github.com/" ++ core ++ "/").data.reverse.dropWhile
        (fun x => x == '/')).reverse = ("https://github.com/" ++ core).data
      have hd : ("https://github.com/" ++ core ++ "/").data.reverse =
          '/' :: (core.data.reverse ++ "https://github.com/".data.reverse) := by
        simp [String.data_append]
      rw [hd]
      rw [List.dropWhile_cons]
      simp only [show (('/' : Char) == '/') = true from rfl, if_true]
      rw [hrev, List.cons_append, List.dropWhile_cons, hc, if_neg (by simp)]
      rw [List.reverse_cons, List.reverse_append]
      simp [String.data_append, hcore]
    have hrepl : pyReplace ("https://github.com/" ++ core) "https://github.com/" "" = core := by
      apply String.ext
      have hd : ("https://github.com/" ++ core).data =
          "https://github.com/".data ++ core.data := by
        simp [String.data_append]
      show replaceAllF "https://github.com/".data "".data
        (("https://github.com/" ++ core).data.length)
        (("https://github.com/" ++ core).data) = core.data
      rw [hd]
      exact replaceAllF_strip_head (by decide) hnocc
    rw [hmain _ hcont, hrstrip, hrepl]
  · intro url h
    simp [generate_code_badge, h]

/-- Witness for C4: the general clauses applied to concrete URLs. -/
theorem code_badge_github_witness :
    (strContains "http://github.com/a" "github.com" = true ∧
      generate_code_badge "http://github.com/a" =
        "[![GitHub](https://img.shields.io/github/stars/" ++
          pyReplace (pyRstripSlash "http://github.com/a") "https://github.com/" "" ++
          "?style=social)](" ++ "http://github.com/a" ++ ")") ∧
    ("org/repo".data ≠ [] ∧ "org/repo".data.getLast? ≠ some '/' ∧
      containsSub "https://github.com/".data "org/repo".data = false ∧
      generate_code_badge ("https://github.com/" ++ "org/repo" ++ "/") =
        "[![GitHub](https://img.shields.io/github/stars/" ++ "org/repo" ++
          "?style=social)](" ++ ("https://github.com/" ++ "org/repo" ++ "/") ++ ")") ∧
    (strContains "https://gitlab.com/x" "github.com" = false ∧
      generate_code_badge "https://gitlab.com/x" = "") :=
  ⟨⟨by decide, code_badge_github.1 "http://github.com/a" (by decide)⟩,
   ⟨by decide, by decide, by decide,
    code_badge_github.2.1 "org/repo" (by decide) (by decide) (by decide)⟩,
   ⟨by decide, code_badge_github.2.2.1 "https://gitlab.com/x" (by decide)⟩⟩

/-! ### Claims about table rendering -/

/-- C9: every successfully rendered row hyperlinks the title to the
project page exactly when the record's project page is non-empty (the
plain title otherwise), and carries a single cell holding the code
badge and the paper badge joined by a space and trimmed. -/
theorem row_rendering (e : Record) (r : String) (h : renderRow e = some r) :
    ∃ title authors code : String,
      getField e "title" = some title ∧
      getField e "authors" = some authors ∧
      getField e "code" = some code ∧
      r = "| " ++
          (if getFieldD e "project page" = "" then title
           else "[" ++ title ++ "](" ++ getFieldD e "project page" ++ ")") ++
          " | " ++ authors ++ " | " ++
          pyStrip (generate_code_badge code ++ " " ++
            generate_arxiv_badge (getFieldD e "arxiv page")) ++
          " | " ++ getFieldD e "summary" ++ " |\n" := by
  unfold renderRow at h
  cases hc : getField e "code" with
  | none => rw [hc] at h; exact absurd h (by simp)
  | some code =>
    cases ht : getField e "title" with
    | none => rw [hc, ht] at h; exact absurd h (by simp)
    | some title =>
      cases ha : getField e "authors" with
      | none => rw [hc, ht, ha] at h; exact absurd h (by simp)
      | some authors =>
        rw [hc, ht, ha] at h
        simp only [Option.some.injEq] at h
        exact ⟨title, authors, code, rfl, rfl, rfl, h.symm⟩

/-- Witness for C9 at a record carrying a project page. -/
theorem row_rendering_witness :
    renderRow [("title", "T"), ("authors", "A"), ("code", "c"), ("project page", "p")] =
      some "| [T](p) | A |  |  |\n" ∧
    ∃ title authors code : String,
      getField [("title", "T"), ("authors", "A"), ("code", "c"), ("project page", "p")]
        "title" = some title ∧
      getField [("title", "T"), ("authors", "A"), ("code", "c"), ("project page", "p")]
        "authors" = some authors ∧
      getField [("title", "T"), ("authors", "A"), ("code", "c"), ("project page", "p")]
        "code" = some code ∧
      "| [T](p) | A |  |  |\n" = "| " ++
          (if getFieldD [("title", "T"), ("authors", "A"), ("code", "c"), ("project page", "p")]
              "project page" = "" then title
           else "[" ++ title ++ "](" ++
             getFieldD [("title", "T"), ("authors", "A"), ("code", "c"), ("project page", "p")]
               "project page" ++ ")") ++
          " | " ++ authors ++ " | " ++
          pyStrip (generate_code_badge code ++ " " ++
            generate_arxiv_badge
              (getFieldD [("title", "T"), ("authors", "A"), ("code", "c"), ("project page", "p")]
                "arxiv page")) ++
          " | " ++
          getFieldD [("title", "T"), ("authors", "A"), ("code", "c"), ("project page", "p")]
            "summary" ++ " |\n" :=
  ⟨by decide,
   row_rendering [("title", "T"), ("authors", "A"), ("code", "c"), ("project page", "p")]
     "| [T](p) | A |  |  |\n" (by decide)⟩

/-- C10: the renderer reads `title`, `authors` and `code`
unconditionally — a record missing any of them makes rendering fail
(modelling the `KeyError`) — while `arxiv page`, `project page` and
`summary` are optional; in particular a CSV row with a `topic` column
but no `code` column makes the whole table generation fail rather than
render a row with an empty badge cell. -/
theorem renderer_requires_code_key :
    (∀ e : Record, getField e "code" = none → renderRow e = none) ∧
    (∀ e : Record, getField e "title" = none → renderRow e = none) ∧
    (∀ e : Record, getField e "authors" = none → renderRow e = none) ∧
    (∀ (e : Record) (c t a : String), getField e "code" = some c →
      getField e "title" = some t → getField e "authors" = some a →
      (renderRow e).isSome = true) ∧
    generate_markdown_tables [("t", [[("topic", "t"), ("title", "T"), ("authors", "A")]])] =
      none := by
  refine ⟨?_, ?_, ?_, ?_, by decide⟩
  · intro e h
    unfold renderRow
    rw [h]
  · intro e h
    unfold renderRow
    rw [h]
    cases getField e "code" <;> rfl
  · intro e h
    unfold renderRow
    rw [h]
    cases getField e "code" <;> cases getField e "title" <;> rfl
  · intro e c t a hc ht ha
    unfold renderRow
    rw [hc, ht, ha]
    rfl

/-- Witness for C10 at concrete records. -/
theorem renderer_requires_code_key_witness :
    (getField [("title", "T"), ("authors", "A")] "code" = none ∧
      renderRow [("title", "T"), ("authors", "A")] = none) ∧
    (getField [("authors", "A"), ("code", "c")] "title" = none ∧
      renderRow [("authors", "A"), ("code", "c")] = none) ∧
    (getField [("title", "T"), ("code", "c")] "authors" = none ∧
      renderRow [("title", "T"), ("code", "c")] = none) ∧
    (getField [("title", "T"), ("authors", "A"), ("code", "c")] "code" = some "c" ∧
      getField [("title", "T"), ("authors", "A"), ("code", "c")] "title" = some "T" ∧
      getField [("title", "T"), ("authors", "A"), ("code", "c")] "authors" = some "A" ∧
      (renderRow [("title", "T"), ("authors", "A"), ("code", "c")]).isSome = true) :=
  ⟨⟨by decide, renderer_requires_code_key.1 [("title", "T"), ("authors", "A")] (by decide)⟩,
   ⟨by decide, renderer_requires_code_key.2.1 [("authors", "A"), ("code", "c")] (by decide)⟩,
   ⟨by decide, renderer_requires_code_key.2.2.1 [("title", "T"), ("code", "c")] (by decide)⟩,
   ⟨by decide, by decide, by decide,
    renderer_requires_code_key.2.2.2.1 [("title", "T"), ("authors", "A"), ("code", "c")]
      "c" "T" "A" (by decide) (by decide) (by decide)⟩⟩

/-! ### Newline-freeness plumbing for the rendered tables -/

/-- Characters of a stripped string come from the original. -/
theorem mem_data_pyStrip {c : Char} {s : String} (h : c ∈ (pyStrip s).data) :
    c ∈ s.data := by
  unfold pyStrip at h
  simp only [List.mem_reverse] at h
  exact List.dropWhile_subset _ (by simpa using List.dropWhile_subset _ h)

/-- Characters of a slash-stripped string come from the original. -/
theorem mem_data_pyRstripSlash {c : Char} {s : String} (h : c ∈ (pyRstripSlash s).data) :
    c ∈ s.data := by
  unfold pyRstripSlash at h
  simp only [List.mem_reverse] at h
  simpa using List.dropWhile_subset _ h

/-- Characters after replacement come from the replacement or the
original. -/
theorem mem_replaceAllF {c : Char} {pat repl : List Char} :
    ∀ {fuel : Nat} {s : List Char}, c ∈ replaceAllF pat repl fuel s →
      c ∈ repl ∨ c ∈ s := by
  intro fuel
  induction fuel with
  | zero =>
    intro s h
    cases s with
    | nil => simp [replaceAllF] at h
    | cons x s => exact Or.inr h
  | succ f ih =>
    intro s h
    cases s with
    | nil => simp [replaceAllF] at h
    | cons x s =>
      rw [replaceAllF] at h
      by_cases hp : pat ≠ [] ∧ pat.isPrefixOf (x :: s)
      · rw [if_pos hp] at h
        rcases List.mem_append.mp h with h1 | h2
        · exact Or.inl h1
        · rcases ih h2 with h3 | h4
          · exact Or.inl h3
          · exact Or.inr (List.drop_subset _ _ h4)
      · rw [if_neg hp] at h
        rcases List.mem_cons.mp h with h1 | h2
        · exact Or.inr (h1 ▸ List.mem_cons_self x s)
        · rcases ih h2 with h3 | h4
          · exact Or.inl h3
          · exact Or.inr (List.mem_cons_of_mem x h4)

/-- Characters of any segment of a split come from the original. -/
theorem mem_splitAllF {c : Char} {sep : List Char} :
    ∀ {fuel : Nat} {s l : List Char}, l ∈ splitAllF sep fuel s → c ∈ l →
      c ∈ s := by
  intro fuel
  induction fuel with
  | zero =>
    intro s l hl hc
    cases s with
    | nil => simp [splitAllF] at hl; simp [hl] at hc
    | cons x s =>
      simp only [splitAllF, List.mem_singleton] at hl
      exact hl ▸ hc
  | succ f ih =>
    intro s l hl hc
    cases s with
    | nil => simp [splitAllF] at hl; simp [hl] at hc
    | cons x s =>
      rw [splitAllF] at hl
      by_cases hp : sep ≠ [] ∧ sep.isPrefixOf (x :: s)
      · rw [if_pos hp] at hl
        rcases List.mem_cons.mp hl with h1 | h2
        · simp [h1] at hc
        · exact List.drop_subset _ _ (ih h2 hc)
      · rw [if_neg hp] at hl
        cases hsp : splitAllF sep f s with
        | nil => rw [hsp] at hl; simp at hl; simp [hl] at hc; simp [hc]
        | cons a rest =>
          rw [hsp] at hl
          rcases List.mem_cons.mp hl with h1 | h2
          · subst h1
            rcases List.mem_cons.mp hc with h3 | h4
            · simp [h3]
            · exact List.mem_cons_of_mem x (ih (hsp ▸ List.mem_cons_self a rest) h4)
          · exact List.mem_cons_of_mem x (ih (hsp ▸ List.mem_cons_of_mem a h2) hc)

/-- Characters of the last segment of a Python split come from the
original string. -/
theorem mem_data_pyLast_pySplit {c : Char} {s sep : String}
    (h : c ∈ (pyLast (pySplit s sep)).data) : c ∈ s.data := by
  unfold pyLast at h
  cases hl : pySplit s sep with
  | nil => rw [hl] at h; simp [List.getLastD] at h
  | cons x xs =>
    rw [hl] at h
    have hmem : (x :: xs).getLastD "" ∈ x :: xs := by
      rw [List.getLastD_eq_getLast?, List.getLast?_eq_getLast (x :: xs) (by simp)]
      simp only [Option.getD_some]
      exact List.getLast_mem _
    rw [← hl] at hmem h
    unfold pySplit at hmem h
    obtain ⟨seg, hseg, hmk⟩ := List.mem_map.mp hmem
    rw [← hmk] at h
    exact mem_splitAllF hseg h

/-- Looked-up field values inherit newline-freeness from the record. -/
theorem getField_noNl {e : Record} {k v : String}
    (he : ∀ kv ∈ e, noNl kv.2) (h : getField e k = some v) : noNl v := by
  unfold getField at h
  cases hf : e.find? (fun p => p.1 == k) with
  | none => rw [hf] at h; exact absurd h (by simp)
  | some p =>
    rw [hf] at h
    simp at h
    exact h ▸ he p (List.mem_of_find?_eq_some hf)

/-- Defaulted field values inherit newline-freeness from the record. -/
theorem getFieldD_noNl {e : Record} (k : String)
    (he : ∀ kv ∈ e, noNl kv.2) : noNl (getFieldD e k) := by
  unfold getFieldD
  cases hf : getField e k with
  | none => intro hc; simp at hc
  | some v => exact getField_noNl he hf

/-- The code badge contains no newline when the URL contains none. -/
theorem noNl_code_badge {url : String} (h : noNl url) :
    noNl (generate_code_badge url) := by
  have hurl : '\n' ∉ url.data := h
  unfold generate_code_badge
  by_cases hc : strContains url "github.com"
  · rw [if_pos hc]
    have hrepl : '\n' ∉ (pyReplace (pyRstripSlash url) "https://github.com/" "").data := by
      intro hx
      rcases mem_replaceAllF hx with h5 | h6
      · simp at h5
      · exact h (mem_data_pyRstripSlash h6)
    unfold noNl
    simp +decide [String.data_append, hrepl, hurl]
  · rw [if_neg hc]
    intro hmem
    simp at hmem

/-- The arXiv badge contains no newline when the URL contains none. -/
theorem noNl_arxiv_badge {url : String} (h : noNl url) :
    noNl (generate_arxiv_badge url) := by
  have hurl : '\n' ∉ url.data := h
  unfold generate_arxiv_badge
  by_cases hc : (strContains url "arxiv.org" || strContains url "ar5iv.labs") = true
  · rw [if_pos hc]
    have hlast : '\n' ∉ (pyLast (pySplit url "/")).data := by
      intro hx
      exact h (mem_data_pyLast_pySplit hx)
    unfold noNl
    simp +decide [String.data_append, hlast, hurl]
  · rw [if_neg hc]
    intro hmem
    simp at hmem

/-- Every successfully rendered row is a single newline-terminated line
that starts with a pipe (so it is not a section heading), provided the
record's field values contain no newline. -/
theorem renderRow_shape {e : Record} {r : String} (he : ∀ kv ∈ e, noNl kv.2)
    (h : renderRow e = some r) :
    ∃ body : List Char, r.data = body ++ ['\n'] ∧ '\n' ∉ body ∧
      headingMark.isPrefixOf body = false := by
  unfold renderRow at h
  cases hc : getField e "code" with
  | none => rw [hc] at h; exact absurd h (by simp)
  | some code =>
    cases ht : getField e "title" with
    | none => rw [hc, ht] at h; exact absurd h (by simp)
    | some title =>
      cases ha : getField e "authors" with
      | none => rw [hc, ht, ha] at h; exact absurd h (by simp)
      | some authors =>
        rw [hc, ht, ha] at h
        simp only [Option.some.injEq] at h
        have hT : '\n' ∉ title.data := getField_noNl he ht
        have hA : '\n' ∉ authors.data := getField_noNl he ha
        have hCd : noNl code := getField_noNl he hc
        have hS : '\n' ∉ (getFieldD e "summary").data := getFieldD_noNl _ he
        have hP : '\n' ∉ (getFieldD e "project page").data := getFieldD_noNl _ he
        have hArx : noNl (getFieldD e "arxiv page") := getFieldD_noNl _ he
        have hcb : '\n' ∉ (generate_code_badge code).data := noNl_code_badge hCd
        have hab : '\n' ∉ (generate_arxiv_badge (getFieldD e "arxiv page")).data :=
          noNl_arxiv_badge hArx
        have hComb : '\n' ∉ (pyStrip (generate_code_badge code ++ " " ++
            generate_arxiv_badge (getFieldD e "arxiv page"))).data := by
          intro hx
          have hmem := mem_data_pyStrip hx
          simp +decide [String.data_append, hcb, hab] at hmem
        have httl : '\n' ∉ (if getFieldD e "project page" = "" then title
            else "[" ++ title ++ "](" ++ getFieldD e "project page" ++ ")").data := by
          by_cases hpp : getFieldD e "project page" = ""
          · rw [if_pos hpp]; exact hT
          · rw [if_neg hpp]
            simp +decide [String.data_append, hT, hP]
        refine ⟨'|' :: ' ' :: ((if getFieldD e "project page" = "" then title
            else "[" ++ title ++ "](" ++ getFieldD e "project page" ++ ")").data ++
            (' ' :: '|' :: ' ' :: (authors.data ++
            (' ' :: '|' :: ' ' :: ((pyStrip (generate_code_badge code ++ " " ++
              generate_arxiv_badge (getFieldD e "arxiv page"))).data ++
            (' ' :: '|' :: ' ' :: ((getFieldD e "summary").data ++ [' ', '|']))))))), ?_, ?_, ?_⟩
        · rw [← h]
          simp [String.data_append]
        · simp +decide [hComb, httl, hA, hS]
        · simp +decide [headingMark, List.isPrefixOf]

/-- The character stream of an append-accumulating fold. -/
theorem data_foldl_append (g : α → String) (l : List α) (init : String) :
    (l.foldl (fun a x => a ++ g x) init).data =
      init.data ++ (l.map (fun x => (g x).data)).flatten := by
  induction l generalizing init with
  | nil => simp
  | cons x l ih =>
    rw [List.foldl_cons, ih]
    simp [String.data_append]

/-- `joinNl` distributes over append. -/
theorem joinNl_append (a b : List (List Char)) :
    joinNl (a ++ b) = joinNl a ++ joinNl b := by
  simp [joinNl]

/-- A list of newline-terminated lines can be re-expressed as the
bodies of those lines. -/
theorem exists_bodies {P : List Char → Prop} :
    ∀ {rows : List String}, (∀ r ∈ rows, ∃ b, r.data = b ++ ['\n'] ∧ P b) →
      ∃ bodies : List (List Char),
        rows.map String.data = bodies.map (fun b => b ++ ['\n']) ∧
        ∀ b ∈ bodies, P b := by
  intro rows h
  induction rows with
  | nil => exact ⟨[], rfl, by simp⟩
  | cons r rest ih =>
    obtain ⟨b, hb, hp⟩ := h r (List.mem_cons_self r rest)
    obtain ⟨bodies, hbs, hps⟩ := ih (fun x hx => h x (List.mem_cons_of_mem r hx))
    refine ⟨b :: bodies, by simp [hb, hbs], ?_⟩
    intro x hx
    rcases List.mem_cons.mp hx with h1 | h2
    · exact h1 ▸ hp
    · exact hps x h2

/-- Left members of a `Forall₂` have related right partners. -/
theorem forall2_mem_left {R : α → β → Prop} {l₁ : List α} {l₂ : List β} {a : α}
    (h : List.Forall₂ R l₁ l₂) (ha : a ∈ l₁) : ∃ b ∈ l₂, R a b := by
  induction h with
  | nil => simp at ha
  | cons hr _ ih =>
    rcases List.mem_cons.mp ha with h1 | h2
    · exact ⟨_, List.mem_cons_self _ _, h1 ▸ hr⟩
    · obtain ⟨b, hb, hrb⟩ := ih h2
      exact ⟨b, List.mem_cons_of_mem _ hb, hrb⟩

/-- Mapping compatible functions over the two sides of a `Forall₂`
yields equal lists. -/
theorem map_eq_of_forall2 {R : α → β → Prop} {l₁ : List α} {l₂ : List β}
    (f : α → γ) (g : β → γ) (h : List.Forall₂ R l₁ l₂)
    (hfg : ∀ a b, R a b → f a = g b) : l₁.map f = l₂.map g := by
  induction h with
  | nil => rfl
  | cons hr _ ih => simp [ih, hfg _ _ hr]

/-- Counting heading lines over the concatenated per-topic chunks: each
chunk `"\n## {topic}\n{table}\n"` contributes exactly one line starting
with `## `, provided topics are newline-free and the table is a block
of newline-free lines none of which starts with `## `. -/
theorem countP_lines_chunks (tables : List (String × String))
    (h : ∀ te ∈ tables, noNl te.1 ∧ ∃ bodies : List (List Char),
      te.2.data = joinNl bodies ∧
      ∀ b ∈ bodies, '\n' ∉ b ∧ headingMark.isPrefixOf b = false) :
    ((linesOf ((tables.map
        (fun te => ("\n## " ++ te.1 ++ "\n" ++ te.2 ++ "\n").data)).flatten)).filter
      (fun l => headingMark.isPrefixOf l)).length = tables.length := by
  induction tables with
  | nil => simp +decide [linesOf, headingMark]
  | cons te rest ih =>
    obtain ⟨hnl, bodies, hbd, hbprops⟩ := h te (List.mem_cons_self te rest)
    have hchunk : ("\n## " ++ te.1 ++ "\n" ++ te.2 ++ "\n").data =
        joinNl ([[], headingMark ++ te.1.data] ++ bodies ++ [[]]) := by
      simp [String.data_append, joinNl, headingMark, hbd]
    rw [List.map_cons, List.flatten_cons, hchunk,
      linesOf_joinNl _ ?hlines]
    case hlines =>
      intro l hl
      simp only [List.mem_append, List.mem_cons, List.mem_singleton,
        List.not_mem_nil, or_false] at hl
      rcases hl with ((h1 | h1) | h1) | h1
      · simp [h1]
      · subst h1
        simpa +decide [headingMark] using hnl
      · exact (hbprops l h1).1
      · simp [h1]
    rw [List.filter_append, List.length_append]
    have hpre : (headingMark.isPrefixOf (headingMark ++ te.1.data)) = true :=
      List.isPrefixOf_iff_prefix.mpr (List.prefix_append _ _)
    have hbodies : bodies.filter (fun l => headingMark.isPrefixOf l) = [] := by
      apply List.filter_eq_nil_iff.mpr
      intro b hb
      simp [(hbprops b hb).2]
    have hone : (([[], headingMark ++ te.1.data] ++ bodies ++ [[]]).filter
        (fun l => headingMark.isPrefixOf l)).length = 1 := by
      rw [List.filter_append, List.filter_append, hbodies]
      simp +decide [List.filter_cons, hpre, headingMark]
    rw [hone, ih (fun x hx => h x (List.mem_cons_of_mem te hx))]
    simp [Nat.add_comm]

/-- The number of `## ` heading lines in the generated `new_content`
equals the number of topics, under the same per-table shape
hypothesis. -/
theorem countHeadings_new_content (tables : List (String × String))
    (h : ∀ te ∈ tables, noNl te.1 ∧ ∃ bodies : List (List Char),
      te.2.data = joinNl bodies ∧
      ∀ b ∈ bodies, '\n' ∉ b ∧ headingMark.isPrefixOf b = false) :
    countHeadings (new_content tables) = tables.length := by
  unfold countHeadings new_content
  rw [data_foldl_append]
  rw [show ("" : String).data = [] from rfl, List.nil_append]
  exact countP_lines_chunks tables h

/-- C1: for grouped input with `N` distinct topics (and no stray
newlines in topics or field values, which would corrupt the text
layout), the generated content placed after the marker contains exactly
`N` `## ` section headings — one per topic, in order — and each topic's
table is the fixed head followed by exactly one rendered row per record
of that topic. -/
theorem tables_one_heading_per_topic
    (data : List (String × List Record)) (tables : List (String × String))
    (hnodup : (data.map Prod.fst).Nodup)
    (hwf : ∀ p ∈ data, noNl p.1 ∧ ∀ e ∈ p.2, ∀ kv ∈ e, noNl kv.2)
    (hok : generate_markdown_tables data = some tables) :
    countHeadings (new_content tables) = data.length ∧
    tables.map Prod.fst = data.map Prod.fst ∧
    (tables.map Prod.fst).Nodup ∧
    List.Forall₂ (fun (te : String × String) (de : String × List Record) =>
      te.1 = de.1 ∧ ∃ rows : List String, de.2.mapM renderRow = some rows ∧
        rows.length = de.2.length ∧
        te.2 = rows.foldl (fun t r => t ++ r) tableHead) tables data := by
  have hf2 := mapM_eq_some_forall2 hok
  have hf3 : List.Forall₂ (fun (te : String × String) (de : String × List Record) =>
      te.1 = de.1 ∧ ∃ rows : List String, de.2.mapM renderRow = some rows ∧
        rows.length = de.2.length ∧
        te.2 = rows.foldl (fun t r => t ++ r) tableHead) tables data := by
    refine hf2.imp ?_
    intro te de hte
    cases hrt : renderTable de.2 with
    | none => rw [hrt] at hte; exact absurd hte (by simp)
    | some tb =>
      rw [hrt] at hte
      simp only [Option.map_some', Option.some.injEq] at hte
      unfold renderTable at hrt
      cases hrm : de.2.mapM renderRow with
      | none => rw [hrm] at hrt; exact absurd hrt (by simp)
      | some rows =>
        rw [hrm] at hrt
        simp only [Option.map_some', Option.some.injEq] at hrt
        refine ⟨by rw [← hte], rows, rfl, (mapM_eq_some_forall2 hrm).length_eq, ?_⟩
        rw [← hte, ← hrt]
  have hmapeq : tables.map Prod.fst = data.map Prod.fst :=
    map_eq_of_forall2 _ _ hf3 (fun a b hr => hr.1)
  refine ⟨?_, hmapeq, hmapeq ▸ hnodup, hf3⟩
  have hlen : tables.length = data.length := hf3.length_eq
  rw [← hlen]
  apply countHeadings_new_content
  intro te hte
  obtain ⟨de, hde, hr⟩ := forall2_mem_left hf3 hte
  obtain ⟨hfst, rows, hrm, hrlen, htb⟩ := hr
  have hwfd := hwf de hde
  constructor
  · rw [hfst]; exact hwfd.1
  · have hrows : ∀ r ∈ rows, ∃ b, r.data = b ++ ['\n'] ∧
        ('\n' ∉ b ∧ headingMark.isPrefixOf b = false) := by
      intro r hrmem
      obtain ⟨e, hemem, hre⟩ := forall2_mem_left (mapM_eq_some_forall2 hrm) hrmem
      exact renderRow_shape (hwfd.2 e hemem) hre
    obtain ⟨bodies, hbs, hprops⟩ := exists_bodies hrows
    refine ⟨["| Title | Authors | Code / arXiv Page | Summary |".data,
      "|:-------------------|:-------------------|:-------------------:|:-------------------|".data] ++
        bodies, ?_, ?_⟩
    · rw [htb, data_foldl_append (fun r => r) rows tableHead, joinNl_append]
      have h1 : tableHead.data =
          joinNl ["| Title | Authors | Code / arXiv Page | Summary |".data,
            "|:-------------------|:-------------------|:-------------------:|:-------------------|".data] := by
        decide
      have h2 : ((rows.map fun x => x.data).flatten) = joinNl bodies := by
        rw [show (rows.map fun x => x.data) = bodies.map (fun b => b ++ ['\n']) from hbs]
        rfl
      rw [h1, h2]
    · intro b hb
      rcases List.mem_append.mp hb with h1 | h2
      · rcases List.mem_cons.mp h1 with h3 | h4
        · subst h3
          exact ⟨by decide, by decide⟩
        · rcases List.mem_singleton.mp h4 with rfl
          exact ⟨by decide, by decide⟩
      · exact hprops b h2

/-- Witness for C1 on a concrete two-topic input with two records under
the first topic. -/
theorem tables_one_heading_per_topic_witness :
    (([("t1", [[("title", "T1"), ("authors", "A1"), ("code", "c1")],
               [("title", "T2"), ("authors", "A2"), ("code", "c2")]]),
       ("t2", [[("title", "T3"), ("authors", "A3"), ("code", "c3")]])].map
        Prod.fst).Nodup ∧
    (∀ p ∈ [("t1", [[("title", "T1"), ("authors", "A1"), ("code", "c1")],
                    [("title", "T2"), ("authors", "A2"), ("code", "c2")]]),
            ("t2", [[("title", "T3"), ("authors", "A3"), ("code", "c3")]])],
      noNl p.1 ∧ ∀ e ∈ p.2, ∀ kv ∈ e, noNl kv.2) ∧
    generate_markdown_tables
        [("t1", [[("title", "T1"), ("authors", "A1"), ("code", "c1")],
                 [("title", "T2"), ("authors", "A2"), ("code", "c2")]]),
         ("t2", [[("title", "T3"), ("authors", "A3"), ("code", "c3")]])] =
      some [("t1", tableHead ++ "| T1 | A1 |  |  |\n" ++ "| T2 | A2 |  |  |\n"),
            ("t2", tableHead ++ "| T3 | A3 |  |  |\n")]) ∧
    countHeadings (new_content
      [("t1", tableHead ++ "| T1 | A1 |  |  |\n" ++ "| T2 | A2 |  |  |\n"),
       ("t2", tableHead ++ "| T3 | A3 |  |  |\n")]) = 2 ∧
    ([("t1", tableHead ++ "| T1 | A1 |  |  |\n" ++ "| T2 | A2 |  |  |\n"),
      ("t2", tableHead ++ "| T3 | A3 |  |  |\n")].map Prod.fst) =
      ([("t1", [[("title", "T1"), ("authors", "A1"), ("code", "c1")],
                [("title", "T2"), ("authors", "A2"), ("code", "c2")]]),
        ("t2", [[("title", "T3"), ("authors", "A3"), ("code", "c3")]])].map Prod.fst) ∧
    List.Forall₂ (fun (te : String × String) (de : String × List Record) =>
      te.1 = de.1 ∧ ∃ rows : List String, de.2.mapM renderRow = some rows ∧
        rows.length = de.2.length ∧
        te.2 = rows.foldl (fun t r => t ++ r) tableHead)
      [("t1", tableHead ++ "| T1 | A1 |  |  |\n" ++ "| T2 | A2 |  |  |\n"),
       ("t2", tableHead ++ "| T3 | A3 |  |  |\n")]
      [("t1", [[("title", "T1"), ("authors", "A1"), ("code", "c1")],
               [("title", "T2"), ("authors", "A2"), ("code", "c2")]]),
       ("t2", [[("title", "T3"), ("authors", "A3"), ("code", "c3")]])] ∧
    ([("t1", tableHead ++ "| T1 | A1 |  |  |\n" ++ "| T2 | A2 |  |  |\n"),
      ("t2", tableHead ++ "| T3 | A3 |  |  |\n")].map Prod.fst).Nodup := by
  have hmain := tables_one_heading_per_topic
    [("t1", [[("title", "T1"), ("authors", "A1"), ("code", "c1")],
             [("title", "T2"), ("authors", "A2"), ("code", "c2")]]),
     ("t2", [[("title", "T3"), ("authors", "A3"), ("code", "c3")]])]
    [("t1", tableHead ++ "| T1 | A1 |  |  |\n" ++ "| T2 | A2 |  |  |\n"),
     ("t2", tableHead ++ "| T3 | A3 |  |  |\n")]
    (by decide) (by decide) (by decide)
  exact ⟨⟨by decide, by decide, by decide⟩, hmain.1, hmain.2.1, hmain.2.2.2, hmain.2.2.1⟩
